import Mathlib

set_option maxHeartbeats 1000000

/-!
Verification of the `runtime-cfg` crate: the configuration-predicate AST
(`src/lib.rs`), the evaluator and the `Matcher`/`Pattern` capabilities
(`src/matches.rs`), the attribute parser (`src/parsing.rs`) and the printer
(`src/printing.rs`), embedded shallowly.  A `Pattern` is embedded as its
`matches` method, a function `String → Option String → Bool`; a `Matcher`
as a function `String → Bool`.
-/

/-- The configuration predicate AST (`src/lib.rs`, `enum Predicate`).
`Any`/`All` hold the ordered children; the `Box` indirection of the source
is erased by the embedding. -/
inductive Predicate where
  | Any : List Predicate → Predicate
  | All : List Predicate → Predicate
  | Not : Predicate → Predicate
  | Name : String → Predicate
  | NameValue : String → String → Predicate

/-- Builder `any` (`src/lib.rs`): wraps the children in `Predicate::Any`. -/
def any (predicates : List Predicate) : Predicate := Predicate.Any predicates

/-- Builder `all` (`src/lib.rs`): wraps the children in `Predicate::All`. -/
def all (predicates : List Predicate) : Predicate := Predicate.All predicates

/-- Builder `not` (`src/lib.rs`): wraps the child in `Predicate::Not`. -/
def not (predicate : Predicate) : Predicate := Predicate.Not predicate

/-- Builder `name` (`src/lib.rs`). -/
def name (n : String) : Predicate := Predicate.Name n

/-- Builder `name_value` (`src/lib.rs`). -/
def name_value (n v : String) : Predicate := Predicate.NameValue n v

/-- The `Cfg` wrapper (`src/lib.rs`, `pub struct Cfg(Predicate)`). -/
structure Cfg where
  pred : Predicate

/-- `impl From<Predicate> for Cfg` (`src/lib.rs`). -/
def Cfg.fromPredicate (p : Predicate) : Cfg := Cfg.mk p

/-- `impl From<Cfg> for Predicate` (`src/lib.rs`). -/
def Predicate.fromCfg (c : Cfg) : Predicate := c.pred

mutual

/-- `Predicate::matches` (`src/matches.rs`): structural evaluation against a
pattern.  The `Iterator::any`/`Iterator::all` loops of the source become the
mutually recursive `anyMatches`/`allMatches`. -/
def Predicate.matches : Predicate → (String → Option String → Bool) → Bool
  | .Any ps, pat => anyMatches ps pat
  | .All ps, pat => allMatches ps pat
  | .Not p, pat => !(p.matches pat)
  | .Name n, pat => pat n none
  | .NameValue n v, pat => pat n (some v)

/-- `predicates.iter().any(|predicate| predicate.matches(pattern))`. -/
def anyMatches : List Predicate → (String → Option String → Bool) → Bool
  | [], _ => false
  | p :: ps, pat => p.matches pat || anyMatches ps pat

/-- `predicates.iter().all(|predicate| predicate.matches(pattern))`. -/
def allMatches : List Predicate → (String → Option String → Bool) → Bool
  | [], _ => true
  | p :: ps, pat => p.matches pat && allMatches ps pat

end

/-- `Cfg` dereferences to its predicate, so `cfg.matches(pattern)` is
`Predicate::matches` on the wrapped predicate (`src/lib.rs`, `impl Deref`). -/
def Cfg.matches (c : Cfg) (pat : String → Option String → Bool) : Bool :=
  c.pred.matches pat

/-- `impl Matcher for &str` (`src/matches.rs`): exact string equality. -/
def strMatcher (s : String) : String → Bool := fun value => s == value

/-- `impl Matcher for Vec<&str>` / `&[&str]` (`src/matches.rs`): membership. -/
def strListMatcher (l : List String) : String → Bool :=
  fun value => l.any (fun s => s == value)

/-- `impl Matcher for Option<T>` (`src/matches.rs`): an absent matcher
reports false (`self.as_ref().map_or(false, |m| m.matches(value))`). -/
def optMatcher (m : Option (String → Bool)) : String → Bool := fun value =>
  match m with
  | some f => f value
  | none => false

/-- `impl Pattern for [(K, Option<V>)]` (`src/matches.rs`): the ordered
list/slice flag source, scanned linearly.  An entry is a key matcher paired
with an optional value matcher; the `map_or(false, ...)` on the optional
value matcher is the `optMatcher` combinator. -/
def slicePattern (entries : List ((String → Bool) × Option (String → Bool)))
    (key : String) (value : Option String) : Bool :=
  match value with
  | some v => entries.any (fun e => e.1 key && optMatcher e.2 v)
  | none => entries.any (fun e => e.1 key)

/-- `HashMap::get`, modelled on an association list: the map invariant is
key uniqueness, stated where needed as `Nodup` of the keys. -/
def hashMapGet {α : Type} (entries : List (String × α)) (key : String) :
    Option α :=
  (entries.find? (fun e => e.1 == key)).map (fun e => e.2)

/-- `impl Pattern for HashMap<K, V>` (`src/matches.rs`) at the
optional-value-matcher instantiation `V = Option<M>` (whose `Matcher` impl
is `optMatcher`): value query is `get` then `matches`, presence query is
`contains_key`. -/
def hashMapPattern (entries : List (String × Option (String → Bool)))
    (key : String) (value : Option String) : Bool :=
  match value with
  | some v =>
    match hashMapGet entries key with
    | some mv => optMatcher mv v
    | none => false
  | none => (hashMapGet entries key).isSome

theorem anyMatches_iff (ps : List Predicate) (pat : String → Option String → Bool) :
    anyMatches ps pat = true ↔ ∃ p ∈ ps, p.matches pat = true := by
  induction ps with
  | nil => simp [anyMatches]
  | cons p ps ih => simp [anyMatches, ih]

theorem allMatches_iff (ps : List Predicate) (pat : String → Option String → Bool) :
    allMatches ps pat = true ↔ ∀ p ∈ ps, p.matches pat = true := by
  induction ps with
  | nil => simp [allMatches]
  | cons p ps ih => simp [allMatches, ih]

example : Predicate.matches (.All [.Name "unix", .NameValue "target_pointer_width" "32"])
    (slicePattern [(strMatcher "unix", none), (strMatcher "target_pointer_width", some (strMatcher "32"))]) = true := by
  decide

example : Predicate.matches (.All [.Name "unix", .NameValue "target_pointer_width" "32"])
    (slicePattern [(strMatcher "unix", none)]) = false := by
  decide

example : Predicate.matches (.Any []) (fun _ _ => true) = false := by decide

/-- C1: `Predicate::matches` evaluates structurally: `Any` is an existential
over the children (false on `[]`), `All` universal (true on `[]`), `Not` is
negation, `Name n` queries `(n, None)`, `NameValue n v` queries
`(n, Some v)`. -/
theorem predicate_matches_structural (pat : String → Option String → Bool)
    (ps : List Predicate) (q : Predicate) (n v : String) :
    ((Predicate.Any ps).matches pat = true ↔ ∃ p ∈ ps, p.matches pat = true)
    ∧ (Predicate.Any []).matches pat = false
    ∧ ((Predicate.All ps).matches pat = true ↔ ∀ p ∈ ps, p.matches pat = true)
    ∧ (Predicate.All []).matches pat = true
    ∧ (Predicate.Not q).matches pat = !(q.matches pat)
    ∧ (Predicate.Name n).matches pat = pat n none
    ∧ (Predicate.NameValue n v).matches pat = pat n (some v) := by
  refine ⟨?_, ?_, ?_, ?_, ?_, ?_, ?_⟩
  · rw [Predicate.matches]; exact anyMatches_iff ps pat
  · rw [Predicate.matches]; rfl
  · rw [Predicate.matches]; exact allMatches_iff ps pat
  · rw [Predicate.matches]; rfl
  · rw [Predicate.matches]
  · rw [Predicate.matches]
  · rw [Predicate.matches]

theorem optMatcher_true (o : Option (String → Bool)) (v : String) :
    optMatcher o v = true ↔ ∃ f, o = some f ∧ f v = true := by
  cases o <;> simp [optMatcher]

/-- C2: for both canonical flag-source shapes, a presence query `(key, none)`
succeeds iff some entry's key matches, irrespective of any declared value;
a value query `(key, some v)` succeeds iff some entry's key matches and
that entry has a declared value whose matcher accepts `v` (an entry with no
declared value never satisfies a value query).  The map shape carries the
`HashMap` invariant of unique keys. -/
theorem pattern_query_contract
    (es : List ((String → Bool) × Option (String → Bool)))
    (m : List (String × Option (String → Bool)))
    (key v : String) (hnd : (m.map Prod.fst).Nodup) :
    (slicePattern es key none = true ↔ ∃ e ∈ es, e.1 key = true)
    ∧ (slicePattern es key (some v) = true ↔
        ∃ e ∈ es, e.1 key = true ∧ ∃ f, e.2 = some f ∧ f v = true)
    ∧ (hashMapPattern m key none = true ↔ ∃ e ∈ m, e.1 = key)
    ∧ (hashMapPattern m key (some v) = true ↔
        ∃ e ∈ m, e.1 = key ∧ ∃ f, e.2 = some f ∧ f v = true) := by
  refine ⟨?_, ?_, ?_, ?_⟩
  · simp [slicePattern, List.any_eq_true]
  · simp only [slicePattern, List.any_eq_true, Bool.and_eq_true, optMatcher_true]
  · simp [hashMapPattern, hashMapGet, Option.isSome_map, List.find?_isSome]
  · constructor
    · intro h
      rcases hfind : m.find? (fun e => e.1 == key) with _ | e0
      · simp [hashMapPattern, hashMapGet, hfind] at h
      · have hmem := List.mem_of_find?_eq_some hfind
        have hkey : e0.1 = key := by
          have := List.find?_some hfind
          simpa using this
        simp only [hashMapPattern, hashMapGet, hfind, Option.map_some'] at h
        rcases (optMatcher_true e0.2 v).mp h with ⟨f, hf, hfv⟩
        exact ⟨e0, hmem, hkey, f, hf, hfv⟩
    · rintro ⟨e, hmem, hkey, f, hf, hfv⟩
      have hsome : (m.find? (fun x => x.1 == key)).isSome = true := by
        rw [List.find?_isSome]
        exact ⟨e, hmem, by simp [hkey]⟩
      rcases hfind : m.find? (fun x => x.1 == key) with _ | e0
      · rw [hfind] at hsome; simp at hsome
      · have hmem0 := List.mem_of_find?_eq_some hfind
        have hkey0 : e0.1 = key := by
          have := List.find?_some hfind
          simpa using this
        have : e0 = e := List.inj_on_of_nodup_map hnd hmem0 hmem (by rw [hkey0, hkey])
        subst this
        simp only [hashMapPattern, hashMapGet, hfind, Option.map_some']
        exact (optMatcher_true e0.2 v).mpr ⟨f, hf, hfv⟩

/-- Witness for C2 at a concrete flag set: keys `unix` (no declared value)
and `target_pointer_width = 32`. -/
theorem pattern_query_contract_witness :
    ([("unix", (none : Option (String → Bool))),
      ("target_pointer_width", some (strMatcher "32"))].map Prod.fst).Nodup
    ∧ ((slicePattern [(strMatcher "unix", none), (strMatcher "target_pointer_width", some (strMatcher "32"))] "unix" none = true ↔
        ∃ e ∈ [(strMatcher "unix", (none : Option (String → Bool))), (strMatcher "target_pointer_width", some (strMatcher "32"))], e.1 "unix" = true)
      ∧ (slicePattern [(strMatcher "unix", none), (strMatcher "target_pointer_width", some (strMatcher "32"))] "unix" (some "32") = true ↔
        ∃ e ∈ [(strMatcher "unix", (none : Option (String → Bool))), (strMatcher "target_pointer_width", some (strMatcher "32"))], e.1 "unix" = true ∧ ∃ f, e.2 = some f ∧ f "32" = true)
      ∧ (hashMapPattern [("unix", none), ("target_pointer_width", some (strMatcher "32"))] "unix" none = true ↔
        ∃ e ∈ [("unix", (none : Option (String → Bool))), ("target_pointer_width", some (strMatcher "32"))], e.1 = "unix")
      ∧ (hashMapPattern [("unix", none), ("target_pointer_width", some (strMatcher "32"))] "unix" (some "32") = true ↔
        ∃ e ∈ [("unix", (none : Option (String → Bool))), ("target_pointer_width", some (strMatcher "32"))], e.1 = "unix" ∧ ∃ f, e.2 = some f ∧ f "32" = true)) :=
  ⟨by decide,
   pattern_query_contract
     [(strMatcher "unix", none), (strMatcher "target_pointer_width", some (strMatcher "32"))]
     [("unix", none), ("target_pointer_width", some (strMatcher "32"))]
     "unix" "32" (by decide)⟩

/-- C9: evaluation of `Any` and `All` is independent of child order. -/
theorem any_all_perm_invariant (pat : String → Option String → Bool)
    (l l' : List Predicate) (h : l.Perm l') :
    (Predicate.Any l).matches pat = (Predicate.Any l').matches pat
    ∧ (Predicate.All l).matches pat = (Predicate.All l').matches pat := by
  have key : ∀ (x y : Bool), (x = true ↔ y = true) → x = y := by decide
  constructor
  · apply key
    simp only [Predicate.matches]
    rw [anyMatches_iff, anyMatches_iff]
    constructor
    · rintro ⟨p, hp, hm⟩; exact ⟨p, h.mem_iff.mp hp, hm⟩
    · rintro ⟨p, hp, hm⟩; exact ⟨p, h.mem_iff.mpr hp, hm⟩
  · apply key
    simp only [Predicate.matches]
    rw [allMatches_iff, allMatches_iff]
    constructor
    · intro hall p hp; exact hall p (h.mem_iff.mpr hp)
    · intro hall p hp; exact hall p (h.mem_iff.mp hp)

/-- Witness for C9: swapping the two children of a concrete `Any`/`All`. -/
theorem any_all_perm_invariant_witness :
    ([Predicate.Name "a", Predicate.Name "b"].Perm
      [Predicate.Name "b", Predicate.Name "a"])
    ∧ ((Predicate.Any [Predicate.Name "a", Predicate.Name "b"]).matches (fun k _ => k == "a")
        = (Predicate.Any [Predicate.Name "b", Predicate.Name "a"]).matches (fun k _ => k == "a")
      ∧ (Predicate.All [Predicate.Name "a", Predicate.Name "b"]).matches (fun k _ => k == "a")
        = (Predicate.All [Predicate.Name "b", Predicate.Name "a"]).matches (fun k _ => k == "a")) :=
  ⟨List.Perm.swap (Predicate.Name "b") (Predicate.Name "a") [],
   any_all_perm_invariant (fun k _ => k == "a") _ _
     (List.Perm.swap (Predicate.Name "b") (Predicate.Name "a") [])⟩

/-- C10: the `Cfg` wrapper is semantically transparent: matching through the
wrapper equals matching the predicate, and the two `From` conversions are
mutually inverse. -/
theorem cfg_wrapper_transparent (p : Predicate) (c : Cfg)
    (pat : String → Option String → Bool) :
    (Cfg.fromPredicate p).matches pat = p.matches pat
    ∧ Predicate.fromCfg (Cfg.fromPredicate p) = p
    ∧ Cfg.fromPredicate (Predicate.fromCfg c) = c :=
  ⟨rfl, rfl, rfl⟩

/-- One UTF-8 continuation byte: `10xxxxxx`. -/
def utf8Cont (b : Nat) : Bool := 128 ≤ b && b < 192

/-- Strict UTF-8 decoding of a byte sequence — the validation performed by
Rust's `String::from_utf8`: rejects overlong forms, surrogates, truncated
sequences and out-of-range code points. -/
def utf8Decode : List Nat → Option (List Char)
  | [] => some []
  | b :: rest =>
    if b < 128 then
      (utf8Decode rest).map (fun cs => Char.ofNat b :: cs)
    else if 194 ≤ b ∧ b ≤ 223 then
      match rest with
      | c1 :: rest2 =>
        if utf8Cont c1 then
          (utf8Decode rest2).map (fun cs => Char.ofNat ((b - 192) * 64 + (c1 - 128)) :: cs)
        else none
      | [] => none
    else if 224 ≤ b ∧ b ≤ 239 then
      match rest with
      | c1 :: c2 :: rest2 =>
        if utf8Cont c1 && utf8Cont c2 then
          let cp := (b - 224) * 4096 + (c1 - 128) * 64 + (c2 - 128)
          if 2048 ≤ cp ∧ ¬(55296 ≤ cp ∧ cp ≤ 57343) then
            (utf8Decode rest2).map (fun cs => Char.ofNat cp :: cs)
          else none
        else none
      | _ => none
    else if 240 ≤ b ∧ b ≤ 244 then
      match rest with
      | c1 :: c2 :: c3 :: rest2 =>
        if utf8Cont c1 && utf8Cont c2 && utf8Cont c3 then
          let cp := (b - 240) * 262144 + (c1 - 128) * 4096 + (c2 - 128) * 64 + (c3 - 128)
          if 65536 ≤ cp ∧ cp ≤ 1114111 then
            (utf8Decode rest2).map (fun cs => Char.ofNat cp :: cs)
          else none
        else none
      | _ => none
    else none

/-- `syn::Lit` (0.15), restricted to what `lit_to_string` consumes.  `Str`
and `Char` carry their already-decoded payloads (escape decoding is the
external lexer's job); `ByteStr` carries the raw bytes as `Nat`s (each
< 256); `Byte` carries the `u8` value; `Int` carries the `u64` value
returned by `LitInt::value`; `Float` is carried as the decimal textual
form of its `f64` value (floating point is not embeddable, and only that
textual form is ever consumed); `Bool` the boolean; `Verbatim` its raw
token text. -/
inductive Lit where
  | Str : String → Lit
  | ByteStr : List Nat → Lit
  | Byte : Nat → Lit
  | Char : Char → Lit
  | Int : Nat → Lit
  | Float : String → Lit
  | Bool : Bool → Lit
  | Verbatim : String → Lit

/-- `lit_to_string` (`src/parsing.rs`).  Returns `none` exactly where the
source aborts: `String::from_utf8(v.value()).expect("utf-8")` on a
byte-string literal whose bytes are not valid UTF-8.  Every other arm is
total. -/
def lit_to_string : Lit → Option String
  | .Str v => some v
  | .ByteStr v => (utf8Decode v).map (fun cs => String.mk cs)
  | .Byte v => some (Char.ofNat (v % 256)).toString
  | .Char v => some v.toString
  | .Int v => some (Nat.repr v)
  | .Float v => some v
  | .Bool v => some (if v then "true" else "false")
  | .Verbatim v => some v

/-- Source span of a token tree, abstracted to an opaque marker
(`proc_macro2::Span` carries no observable structure here). -/
abbrev Span := Nat

/-- A parse error (`syn::Error`): a span and a message. -/
structure ParseErr where
  span : Span
  msg : String
  deriving DecidableEq

mutual

/-- `syn::Meta` (0.15): a bare word, a name-value pair, or a list
`ident(nested, ...)`.  The `syn::MetaList` struct is flattened into the
`Lst` constructor as span, ident and nested items. -/
inductive Meta where
  | Word : Span → String → Meta
  | NameValue : Span → String → Lit → Meta
  | Lst : Span → String → List NestedMeta → Meta

/-- `syn::NestedMeta`: an inner meta item, or a literal standing where a
predicate is expected. -/
inductive NestedMeta where
  | Meta : Meta → NestedMeta
  | Literal : Span → Lit → NestedMeta

end

/-- `Meta::span()`. -/
def Meta.span : Meta → Span
  | .Word sp _ => sp
  | .NameValue sp _ _ => sp
  | .Lst sp _ _ => sp

/-- `NestedMeta::span()`. -/
def NestedMeta.span : NestedMeta → Span
  | .Meta m => m.span
  | .Literal sp _ => sp

/-- `Meta::name()` (syn 0.15): the ident of the item. -/
def Meta.name : Meta → String
  | .Word _ v => v
  | .NameValue _ i _ => i
  | .Lst _ i _ => i

/-- The `{:?}` rendering of a string inside the "unexpected literal"
message: the text in quotes, with backslash escapes for quote, backslash
and the common control characters (Rust's `escape_debug` additionally
escapes other non-printable characters; no claim depends on those). -/
def rustDebugStr (s : String) : String :=
  "\"" ++ String.join (s.data.map (fun c =>
    if c = '"' then "\\\""
    else if c = '\\' then "\\\\"
    else if c = '\n' then "\\n"
    else if c = '\t' then "\\t"
    else if c = '\r' then "\\r"
    else String.mk [c])) ++ "\""

mutual

/-- `parse_meta` (`src/parsing.rs`).  The outer `Option` marks the abort
inside `lit_to_string` (`none` = uncatchable panic); `some` carries the
`syn::Result` the source returns.  The body of `parse_meta_list` is
inlined into the `Lst` arm so the group is structurally recursive; the
standalone `parse_meta_list` below restores the source's factoring, and
`parse_meta_lst_eq` states their agreement. -/
def parse_meta : Meta → Option (Except ParseErr Predicate)
  | .Word _ v => some (.ok (.Name v))
  | .NameValue _ ident lit =>
    match lit_to_string lit with
    | none => none
    | some s => some (.ok (.NameValue ident s))
  | .Lst sp ident nested =>
    if ident = "any" then
      match collectNested nested with
      | none => none
      | some (.error e) => some (.error e)
      | some (.ok ps) => some (.ok (.Any ps))
    else if ident = "all" then
      match collectNested nested with
      | none => none
      | some (.error e) => some (.error e)
      | some (.ok ps) => some (.ok (.All ps))
    else if ident = "not" then
      match nested with
      | [] => some (.error ⟨sp, "#[cfg(not(..))] predicate can\x27t be empty"⟩)
      | n1 :: rest =>
        match parse_nested_meta n1 with
        | none => none
        | some r =>
          match rest with
          | n2 :: _ => some (.error ⟨n2.span, "#[cfg(not(..))] only support one predicate"⟩)
          | [] => some (r.map .Not)
    else if ident = "cfg" then
      match nested with
      | [] => some (.error ⟨sp, "#[cfg(..)] predicate can\x27t be empty"⟩)
      | n1 :: rest =>
        match parse_nested_meta n1 with
        | none => none
        | some r =>
          match rest with
          | n2 :: _ => some (.error ⟨n2.span, "#[cfg(..)] only support one predicate"⟩)
          | [] => some r
    else
      some (.error ⟨sp, "unexpected operator `" ++ ident ++ "`"⟩)

/-- The `map(parse_nested_meta).collect::<syn::Result<Vec<_>>>()` of the
`any`/`all` branches: elements in order, stopping at the first error or
abort. -/
def collectNested : List NestedMeta → Option (Except ParseErr (List Predicate))
  | [] => some (.ok [])
  | n :: rest =>
    match parse_nested_meta n with
    | none => none
    | some (.error e) => some (.error e)
    | some (.ok p) =>
      match collectNested rest with
      | none => none
      | some (.error e) => some (.error e)
      | some (.ok ps) => some (.ok (p :: ps))

/-- `parse_nested_meta` (`src/parsing.rs`): a literal where a predicate is
expected is an error, whose message itself formats the literal through
`lit_to_string` — hence it too can abort. -/
def parse_nested_meta : NestedMeta → Option (Except ParseErr Predicate)
  | .Meta m => parse_meta m
  | .Literal sp lit =>
    match lit_to_string lit with
    | none => none
    | some s => some (.error ⟨sp, "unexpected literal: " ++ rustDebugStr s⟩)

end

/-- `impl TryFrom<syn::Meta> for Cfg` (`src/parsing.rs`): require the
attribute name `cfg`, then parse. -/
def Cfg.tryFromMeta (m : Meta) : Option (Except ParseErr Cfg) :=
  if m.name = "cfg" then
    match parse_meta m with
    | none => none
    | some (.error e) => some (.error e)
    | some (.ok p) => some (.ok (Cfg.mk p))
  else
    some (.error ⟨m.span, "expect #[cfg(..)] attribute"⟩)

/-- A literal is abort-safe when its byte-string payload (if any) is valid
UTF-8; no other literal form can make `lit_to_string` abort. -/
def litUtf8Safe : Lit → Bool
  | .ByteStr v => (utf8Decode v).isSome
  | _ => true

mutual

/-- Every byte-string literal inside the item is valid UTF-8. -/
def Meta.utf8Safe : Meta → Bool
  | .Word _ _ => true
  | .NameValue _ _ lit => litUtf8Safe lit
  | .Lst _ _ nested => nestedAllSafe nested

/-- `Meta.utf8Safe` at a nested position. -/
def NestedMeta.utf8Safe : NestedMeta → Bool
  | .Meta m => m.utf8Safe
  | .Literal _ lit => litUtf8Safe lit

/-- `NestedMeta.utf8Safe` over a list of items. -/
def nestedAllSafe : List NestedMeta → Bool
  | [] => true
  | n :: rest => n.utf8Safe && nestedAllSafe rest

end

theorem lit_to_string_isSome (l : Lit) (h : litUtf8Safe l = true) :
    (lit_to_string l).isSome = true := by
  cases l <;> simp_all [litUtf8Safe, lit_to_string]

theorem nestedAllSafe_mem (l : List NestedMeta) (h : nestedAllSafe l = true) :
    ∀ n ∈ l, n.utf8Safe = true := by
  induction l with
  | nil => intro n hn; cases hn
  | cons x xs ih =>
    rw [nestedAllSafe, Bool.and_eq_true] at h
    intro n hn
    rcases List.mem_cons.mp hn with rfl | hn
    · exact h.1
    · exact ih h.2 n hn

theorem parse_meta_word (sp : Span) (v : String) :
    parse_meta (.Word sp v) = some (.ok (.Name v)) := rfl

theorem parse_meta_name_value (sp : Span) (ident : String) (lit : Lit)
    (s : String) (h : lit_to_string lit = some s) :
    parse_meta (.NameValue sp ident lit) = some (.ok (.NameValue ident s)) := by
  simp [parse_meta, h]

theorem parse_meta_name_value_abort (sp : Span) (ident : String) (lit : Lit)
    (h : lit_to_string lit = none) :
    parse_meta (.NameValue sp ident lit) = none := by
  simp [parse_meta, h]

theorem parse_meta_any_ok (sp : Span) (nested : List NestedMeta)
    (l : List Predicate) (h : collectNested nested = some (.ok l)) :
    parse_meta (.Lst sp "any" nested) = some (.ok (.Any l)) := by
  cases nested <;> (simp only [parse_meta]; simp [h])

theorem parse_meta_any_error (sp : Span) (nested : List NestedMeta)
    (e : ParseErr) (h : collectNested nested = some (.error e)) :
    parse_meta (.Lst sp "any" nested) = some (.error e) := by
  cases nested <;> (simp only [parse_meta]; simp [h])

theorem parse_meta_any_abort (sp : Span) (nested : List NestedMeta)
    (h : collectNested nested = none) :
    parse_meta (.Lst sp "any" nested) = none := by
  cases nested <;> (simp only [parse_meta]; simp [h])

theorem parse_meta_all_ok (sp : Span) (nested : List NestedMeta)
    (l : List Predicate) (h : collectNested nested = some (.ok l)) :
    parse_meta (.Lst sp "all" nested) = some (.ok (.All l)) := by
  cases nested <;> (simp only [parse_meta]; simp [h])

theorem parse_meta_all_error (sp : Span) (nested : List NestedMeta)
    (e : ParseErr) (h : collectNested nested = some (.error e)) :
    parse_meta (.Lst sp "all" nested) = some (.error e) := by
  cases nested <;> (simp only [parse_meta]; simp [h])

theorem parse_meta_all_abort (sp : Span) (nested : List NestedMeta)
    (h : collectNested nested = none) :
    parse_meta (.Lst sp "all" nested) = none := by
  cases nested <;> (simp only [parse_meta]; simp [h])

theorem parse_meta_not_nil (sp : Span) :
    parse_meta (.Lst sp "not" []) =
      some (.error ⟨sp, "#[cfg(not(..))] predicate can\x27t be empty"⟩) := by
  simp only [parse_meta]; simp

theorem parse_meta_not_abort (sp : Span) (n1 : NestedMeta)
    (rest : List NestedMeta) (h : parse_nested_meta n1 = none) :
    parse_meta (.Lst sp "not" (n1 :: rest)) = none := by
  simp only [parse_meta]; simp [h]

theorem parse_meta_not_one (sp : Span) (n1 : NestedMeta)
    (r : Except ParseErr Predicate) (h : parse_nested_meta n1 = some r) :
    parse_meta (.Lst sp "not" [n1]) = some (r.map .Not) := by
  simp only [parse_meta]; simp [h]

theorem parse_meta_not_extra (sp : Span) (n1 n2 : NestedMeta)
    (ns : List NestedMeta) (r : Except ParseErr Predicate)
    (h : parse_nested_meta n1 = some r) :
    parse_meta (.Lst sp "not" (n1 :: n2 :: ns)) =
      some (.error ⟨n2.span, "#[cfg(not(..))] only support one predicate"⟩) := by
  simp only [parse_meta]; simp [h]

theorem parse_meta_cfg_nil (sp : Span) :
    parse_meta (.Lst sp "cfg" []) =
      some (.error ⟨sp, "#[cfg(..)] predicate can\x27t be empty"⟩) := by
  simp only [parse_meta]; simp

theorem parse_meta_cfg_abort (sp : Span) (n1 : NestedMeta)
    (rest : List NestedMeta) (h : parse_nested_meta n1 = none) :
    parse_meta (.Lst sp "cfg" (n1 :: rest)) = none := by
  simp only [parse_meta]; simp [h]

theorem parse_meta_cfg_one (sp : Span) (n1 : NestedMeta)
    (r : Except ParseErr Predicate) (h : parse_nested_meta n1 = some r) :
    parse_meta (.Lst sp "cfg" [n1]) = some r := by
  simp only [parse_meta]; simp [h]

theorem parse_meta_cfg_extra (sp : Span) (n1 n2 : NestedMeta)
    (ns : List NestedMeta) (r : Except ParseErr Predicate)
    (h : parse_nested_meta n1 = some r) :
    parse_meta (.Lst sp "cfg" (n1 :: n2 :: ns)) =
      some (.error ⟨n2.span, "#[cfg(..)] only support one predicate"⟩) := by
  simp only [parse_meta]; simp [h]

theorem parse_meta_unknown_op (sp : Span) (ident : String)
    (nested : List NestedMeta) (h1 : ident ≠ "any") (h2 : ident ≠ "all")
    (h3 : ident ≠ "not") (h4 : ident ≠ "cfg") :
    parse_meta (.Lst sp ident nested) =
      some (.error ⟨sp, "unexpected operator `" ++ ident ++ "`"⟩) := by
  cases nested <;> (simp only [parse_meta]; simp [h1, h2, h3, h4])

theorem parse_meta_isSome_of_lt (k : Nat) :
    ∀ m : Meta, sizeOf m < k → Meta.utf8Safe m = true →
      (parse_meta m).isSome = true := by
  induction k with
  | zero => intro m h; omega
  | succ k ih =>
    intro m hm hsafe
    match m with
    | .Word sp v => simp [parse_meta]
    | .NameValue sp ident lit =>
      have h1 := lit_to_string_isSome lit (by simpa [Meta.utf8Safe] using hsafe)
      rcases hls : lit_to_string lit with _ | s
      · rw [hls] at h1; simp at h1
      · rw [parse_meta_name_value sp ident lit s hls]; rfl
    | .Lst sp ident nested =>
      have hall := nestedAllSafe_mem nested (by simpa [Meta.utf8Safe] using hsafe)
      have hsub : ∀ n ∈ nested, (parse_nested_meta n).isSome = true := by
        intro n hn
        have hsz : sizeOf n < sizeOf nested := List.sizeOf_lt_of_mem hn
        have hsafe' := hall n hn
        match n with
        | .Meta m' =>
          have : sizeOf m' < k := by
            have hlt : sizeOf (Meta.Lst sp ident nested) < k + 1 := hm
            simp only [NestedMeta.Meta.sizeOf_spec] at hsz
            simp only [Meta.Lst.sizeOf_spec] at hlt
            omega
          have := ih m' this (by simpa [NestedMeta.utf8Safe] using hsafe')
          simpa [parse_nested_meta] using this
        | .Literal sp' lit =>
          have h1 := lit_to_string_isSome lit
            (by simpa [NestedMeta.utf8Safe] using hsafe')
          rcases hls : lit_to_string lit with _ | s
          · rw [hls] at h1; simp at h1
          · simp [parse_nested_meta, hls]
      have hcoll : ∀ l : List NestedMeta,
          (∀ n ∈ l, (parse_nested_meta n).isSome = true) →
          (collectNested l).isSome = true := by
        intro l
        induction l with
        | nil => intro _; simp [collectNested]
        | cons x xs ihl =>
          intro hl
          have hx := hl x (List.mem_cons_self x xs)
          rcases hpx : parse_nested_meta x with _ | r
          · rw [hpx] at hx; simp at hx
          · have hxs := ihl (fun n hn => hl n (List.mem_cons_of_mem x hn))
            rcases hcx : collectNested xs with _ | r2
            · rw [hcx] at hxs; simp at hxs
            · cases r <;> cases r2 <;> simp [collectNested, hpx, hcx]
      by_cases hany : ident = "any"
      · subst hany
        rcases hc : collectNested nested with _ | r
        · have := hcoll nested hsub; rw [hc] at this; simp at this
        · cases r with
          | error e => rw [parse_meta_any_error sp nested e hc]; rfl
          | ok l => rw [parse_meta_any_ok sp nested l hc]; rfl
      · by_cases hall2 : ident = "all"
        · subst hall2
          rcases hc : collectNested nested with _ | r
          · have := hcoll nested hsub; rw [hc] at this; simp at this
          · cases r with
            | error e => rw [parse_meta_all_error sp nested e hc]; rfl
            | ok l => rw [parse_meta_all_ok sp nested l hc]; rfl
        · by_cases hnot : ident = "not"
          · subst hnot
            cases nested with
            | nil => rw [parse_meta_not_nil]; rfl
            | cons n1 rest =>
              have h1 := hsub n1 (List.mem_cons_self n1 rest)
              rcases hp1 : parse_nested_meta n1 with _ | r
              · rw [hp1] at h1; simp at h1
              · cases rest with
                | nil => rw [parse_meta_not_one sp n1 r hp1]; rfl
                | cons n2 ns => rw [parse_meta_not_extra sp n1 n2 ns r hp1]; rfl
          · by_cases hcfg : ident = "cfg"
            · subst hcfg
              cases nested with
              | nil => rw [parse_meta_cfg_nil]; rfl
              | cons n1 rest =>
                have h1 := hsub n1 (List.mem_cons_self n1 rest)
                rcases hp1 : parse_nested_meta n1 with _ | r
                · rw [hp1] at h1; simp at h1
                · cases rest with
                  | nil => rw [parse_meta_cfg_one sp n1 r hp1]; rfl
                  | cons n2 ns => rw [parse_meta_cfg_extra sp n1 n2 ns r hp1]; rfl
            · rw [parse_meta_unknown_op sp ident nested hany hall2 hnot hcfg]; rfl

/-- C4 counterexample: on the attribute item `n = b"\xff"` — a name-value
pair whose byte-string literal is not valid UTF-8 — the parser aborts
(`String::from_utf8(..).expect("utf-8")`, modelled as `none`) instead of
returning any result value to the caller. -/
theorem parse_abort_on_bad_bytestr :
    parse_meta (Meta.NameValue 0 "n" (Lit.ByteStr [255])) = none := rfl

/-- C4 (amended): every parse outcome is returned to the caller as a result
value — the parser never aborts — provided every byte-string literal in the
input is valid UTF-8; a non-UTF-8 byte-string literal aborts instead. -/
theorem parse_meta_no_abort (m : Meta) (h : Meta.utf8Safe m = true) :
    (parse_meta m).isSome = true :=
  parse_meta_isSome_of_lt (sizeOf m + 1) m (by omega) h

/-- Witness for C4 at the item `all(unix, os = b"hi")`. -/
theorem parse_meta_no_abort_witness :
    Meta.utf8Safe (Meta.Lst 0 "all" [NestedMeta.Meta (Meta.Word 1 "unix"),
      NestedMeta.Meta (Meta.NameValue 2 "os" (Lit.ByteStr [104, 105]))]) = true
    ∧ (parse_meta (Meta.Lst 0 "all" [NestedMeta.Meta (Meta.Word 1 "unix"),
        NestedMeta.Meta (Meta.NameValue 2 "os" (Lit.ByteStr [104, 105]))])).isSome = true :=
  ⟨by decide,
   parse_meta_no_abort (Meta.Lst 0 "all" [NestedMeta.Meta (Meta.Word 1 "unix"),
     NestedMeta.Meta (Meta.NameValue 2 "os" (Lit.ByteStr [104, 105]))]) (by decide)⟩

/-- C5: `not(...)` and the top-level `cfg(...)` with zero operands return
the "predicate can't be empty" error at the list's span; with more than one
operand (the first of which parses without aborting) they return the
"only support one predicate" error at the extra operand's span; with
exactly one operand that parses successfully, `not` yields `Not` of the
operand's predicate and `cfg` yields the operand's predicate itself. -/
theorem not_cfg_arity (sp : Span) (n1 n2 : NestedMeta) (ns : List NestedMeta)
    (p : Predicate) (h : parse_nested_meta n1 = some (Except.ok p)) :
    parse_meta (.Lst sp "not" []) =
      some (.error ⟨sp, "#[cfg(not(..))] predicate can\x27t be empty"⟩)
    ∧ parse_meta (.Lst sp "cfg" []) =
      some (.error ⟨sp, "#[cfg(..)] predicate can\x27t be empty"⟩)
    ∧ parse_meta (.Lst sp "not" (n1 :: n2 :: ns)) =
      some (.error ⟨n2.span, "#[cfg(not(..))] only support one predicate"⟩)
    ∧ parse_meta (.Lst sp "cfg" (n1 :: n2 :: ns)) =
      some (.error ⟨n2.span, "#[cfg(..)] only support one predicate"⟩)
    ∧ parse_meta (.Lst sp "not" [n1]) = some (.ok (.Not p))
    ∧ parse_meta (.Lst sp "cfg" [n1]) = some (.ok p) :=
  ⟨parse_meta_not_nil sp, parse_meta_cfg_nil sp,
   parse_meta_not_extra sp n1 n2 ns (Except.ok p) h,
   parse_meta_cfg_extra sp n1 n2 ns (Except.ok p) h,
   by rw [parse_meta_not_one sp n1 (Except.ok p) h]; rfl,
   parse_meta_cfg_one sp n1 (Except.ok p) h⟩

/-- Witness for C5 at the operands `foo` (span 1) and `bar` (span 2). -/
theorem not_cfg_arity_witness :
    parse_nested_meta (NestedMeta.Meta (Meta.Word 1 "foo")) =
      some (Except.ok (Predicate.Name "foo"))
    ∧ (parse_meta (.Lst 0 "not" []) =
        some (.error ⟨0, "#[cfg(not(..))] predicate can\x27t be empty"⟩)
      ∧ parse_meta (.Lst 0 "cfg" []) =
        some (.error ⟨0, "#[cfg(..)] predicate can\x27t be empty"⟩)
      ∧ parse_meta (.Lst 0 "not" [NestedMeta.Meta (Meta.Word 1 "foo"),
          NestedMeta.Meta (Meta.Word 2 "bar")]) =
        some (.error ⟨(NestedMeta.Meta (Meta.Word 2 "bar")).span,
          "#[cfg(not(..))] only support one predicate"⟩)
      ∧ parse_meta (.Lst 0 "cfg" [NestedMeta.Meta (Meta.Word 1 "foo"),
          NestedMeta.Meta (Meta.Word 2 "bar")]) =
        some (.error ⟨(NestedMeta.Meta (Meta.Word 2 "bar")).span,
          "#[cfg(..)] only support one predicate"⟩)
      ∧ parse_meta (.Lst 0 "not" [NestedMeta.Meta (Meta.Word 1 "foo")]) =
        some (.ok (.Not (.Name "foo")))
      ∧ parse_meta (.Lst 0 "cfg" [NestedMeta.Meta (Meta.Word 1 "foo")]) =
        some (.ok (.Name "foo"))) :=
  ⟨rfl, not_cfg_arity 0 (NestedMeta.Meta (Meta.Word 1 "foo"))
    (NestedMeta.Meta (Meta.Word 2 "bar")) [] (Predicate.Name "foo") rfl⟩

/-- C6 counterexample: the operator `cfg` at nested-expression position is
not `any`, `all` or `not`, yet `any(cfg(foo))` parses successfully to
`Any [Name "foo"]` instead of returning an error naming the operator: the
parser also recognizes `cfg` wherever it appears. -/
theorem nested_cfg_accepted :
    parse_meta (Meta.Lst 0 "any" [NestedMeta.Meta (Meta.Lst 1 "cfg"
      [NestedMeta.Meta (Meta.Word 2 "foo")])]) =
      some (.ok (.Any [.Name "foo"])) := rfl

/-- C6 (amended): a parenthesized operator list whose operator is not
`any`, `all`, `not` — and not `cfg`, which the parser accepts at any
position — is an error naming the unrecognized operator. -/
theorem unknown_operator_named (sp : Span) (ident : String)
    (nested : List NestedMeta) (h1 : ident ≠ "any") (h2 : ident ≠ "all")
    (h3 : ident ≠ "not") (h4 : ident ≠ "cfg") :
    parse_meta (.Lst sp ident nested) =
      some (.error ⟨sp, "unexpected operator `" ++ ident ++ "`"⟩) :=
  parse_meta_unknown_op sp ident nested h1 h2 h3 h4

/-- Witness for C6 at the operator `foo(bar)`. -/
theorem unknown_operator_named_witness :
    ("foo" ≠ "any" ∧ "foo" ≠ "all" ∧ "foo" ≠ "not" ∧ "foo" ≠ "cfg")
    ∧ parse_meta (.Lst 0 "foo" [NestedMeta.Meta (Meta.Word 1 "bar")]) =
      some (.error ⟨0, "unexpected operator `" ++ "foo" ++ "`"⟩) :=
  ⟨⟨by decide, by decide, by decide, by decide⟩,
   unknown_operator_named 0 "foo" [NestedMeta.Meta (Meta.Word 1 "bar")]
     (by decide) (by decide) (by decide) (by decide)⟩

/-- C7: literal-to-string canonicalization: a string literal maps to its
decoded text, a byte-string literal to its decoded UTF-8 text, a byte or
char literal to the one-character string, integer and float literals to
their decimal textual forms, boolean literals to `"true"`/`"false"`, a
verbatim literal to its raw text; and the resulting `NameValue` predicate
stores exactly that string. -/
theorem lit_canonicalization (s : String) (bs : List Nat) (cs : List Char)
    (b : Nat) (c : Char) (iv : Nat) (fs : String) (bo : Bool) (vs : String)
    (sp : Span) (ident : String) (lit : Lit) (out : String)
    (hbs : utf8Decode bs = some cs) (hlit : lit_to_string lit = some out) :
    lit_to_string (.Str s) = some s
    ∧ lit_to_string (.ByteStr bs) = some (String.mk cs)
    ∧ lit_to_string (.Byte b) = some (Char.ofNat (b % 256)).toString
    ∧ lit_to_string (.Char c) = some c.toString
    ∧ lit_to_string (.Int iv) = some (Nat.repr iv)
    ∧ lit_to_string (.Float fs) = some fs
    ∧ lit_to_string (.Bool bo) = some (if bo then "true" else "false")
    ∧ lit_to_string (.Verbatim vs) = some vs
    ∧ parse_meta (.NameValue sp ident lit) = some (.ok (.NameValue ident out)) := by
  refine ⟨rfl, ?_, rfl, rfl, rfl, rfl, rfl, rfl, ?_⟩
  · simp [lit_to_string, hbs]
  · exact parse_meta_name_value sp ident lit out hlit

/-- Witness for C7: concrete literals of every form, with the byte string
`b"hi"` and the attribute item `target_os = "macos"`. -/
theorem lit_canonicalization_witness :
    utf8Decode [104, 105] = some ['h', 'i']
    ∧ lit_to_string (Lit.Str "macos") = some "macos"
    ∧ (lit_to_string (.Str "hello world") = some "hello world"
      ∧ lit_to_string (.ByteStr [104, 105]) = some (String.mk ['h', 'i'])
      ∧ lit_to_string (.Byte 98) = some (Char.ofNat (98 % 256)).toString
      ∧ lit_to_string (.Char 'c') = some 'c'.toString
      ∧ lit_to_string (.Int 123) = some (Nat.repr 123)
      ∧ lit_to_string (.Float "3.14") = some "3.14"
      ∧ lit_to_string (.Bool true) = some (if true then "true" else "false")
      ∧ lit_to_string (.Verbatim "raw") = some "raw"
      ∧ parse_meta (.NameValue 0 "target_os" (Lit.Str "macos")) =
        some (.ok (.NameValue "target_os" "macos"))) :=
  ⟨by decide, rfl,
   lit_canonicalization "hello world" [104, 105] ['h', 'i'] 98 'c' 123 "3.14"
     true "raw" 0 "target_os" (Lit.Str "macos") "macos" (by decide) rfl⟩

/-- A `syn::Attribute` as consumed by `Cfg::find`: its path (the attribute
name) and the outcome of `attr.parse_meta()`.  Turning raw tokens into that
outcome is the external lexer's job (out of scope per the spec), so the
attribute carries the outcome directly. -/
structure Attribute where
  path : String
  meta : Except ParseErr Meta

/-- `Cfg::find` (`src/parsing.rs`): scan for the first attribute whose path
is `cfg`, try to parse that one, keep only a success (`.ok()` discards the
error).  The outer `Option` again marks the abort — `Cfg::try_from` can
abort inside `lit_to_string`, and `.ok()` catches nothing — while the inner
`Option` is the source's return value. -/
def Cfg.find (attrs : List Attribute) : Option (Option Cfg) :=
  match attrs.find? (fun a => a.path == "cfg") with
  | none => some none
  | some attr =>
    match attr.meta with
    | .error _ => some none
    | .ok m =>
      match Cfg.tryFromMeta m with
      | none => none
      | some (.error _) => some none
      | some (.ok c) => some (some c)

theorem find_first_cfg (pre post : List Attribute) (a : Attribute)
    (hpre : ∀ x ∈ pre, x.path ≠ "cfg") (ha : a.path = "cfg") :
    (pre ++ a :: post).find? (fun x => x.path == "cfg") = some a := by
  induction pre with
  | nil => simp [List.find?_cons, ha]
  | cons x xs ih =>
    have hx : (x.path == "cfg") = false := by
      simpa using hpre x (List.mem_cons_self x xs)
    simp only [List.cons_append, List.find?_cons, hx]
    exact ih (fun y hy => hpre y (List.mem_cons_of_mem x hy))

/-- C8: `Cfg::find` scans for the first attribute named `cfg` and parses
only that one; absence of a `cfg` attribute and a parse failure of the
found attribute both yield `None`, the parse error being discarded, and
`Some` is returned exactly on parse success. -/
theorem cfg_find_contract (attrs pre post : List Attribute) (a : Attribute)
    (m : Meta) (e : ParseErr) (c : Cfg)
    (hpre : ∀ x ∈ pre, x.path ≠ "cfg") (ha : a.path = "cfg") :
    ((∀ x ∈ attrs, x.path ≠ "cfg") → Cfg.find attrs = some none)
    ∧ (a.meta = .error e → Cfg.find (pre ++ a :: post) = some none)
    ∧ (a.meta = .ok m → Cfg.tryFromMeta m = some (.error e) →
        Cfg.find (pre ++ a :: post) = some none)
    ∧ (a.meta = .ok m → Cfg.tryFromMeta m = some (.ok c) →
        Cfg.find (pre ++ a :: post) = some (some c)) := by
  refine ⟨?_, ?_, ?_, ?_⟩
  · intro habs
    have : attrs.find? (fun x => x.path == "cfg") = none := by
      rw [List.find?_eq_none]
      intro x hx
      simpa using habs x hx
    simp [Cfg.find, this]
  · intro hm
    rw [Cfg.find, find_first_cfg pre post a hpre ha]
    simp [hm]
  · intro hm ht
    rw [Cfg.find, find_first_cfg pre post a hpre ha]
    simp [hm, ht]
  · intro hm ht
    rw [Cfg.find, find_first_cfg pre post a hpre ha]
    simp [hm, ht]

/-- Witness for C8: a `derive` attribute followed by a well-formed `cfg`
attribute. -/
theorem cfg_find_contract_witness :
    (∀ x ∈ [Attribute.mk "derive" (.error ⟨0, "e"⟩)], x.path ≠ "cfg")
    ∧ (Attribute.mk "cfg" (.ok (Meta.Lst 1 "cfg"
        [NestedMeta.Meta (Meta.Word 2 "unix")]))).path = "cfg"
    ∧ (Attribute.mk "cfg" (.ok (Meta.Lst 1 "cfg"
        [NestedMeta.Meta (Meta.Word 2 "unix")]))).meta =
      .ok (Meta.Lst 1 "cfg" [NestedMeta.Meta (Meta.Word 2 "unix")])
    ∧ Cfg.tryFromMeta (Meta.Lst 1 "cfg" [NestedMeta.Meta (Meta.Word 2 "unix")]) =
      some (.ok (Cfg.mk (.Name "unix")))
    ∧ Cfg.find ([Attribute.mk "derive" (.error ⟨0, "e"⟩)] ++
        (Attribute.mk "cfg" (.ok (Meta.Lst 1 "cfg"
          [NestedMeta.Meta (Meta.Word 2 "unix")]))) :: []) =
      some (some (Cfg.mk (.Name "unix"))) :=
  ⟨by intro x hx; rcases List.mem_singleton.mp hx with rfl; decide,
   rfl, rfl, rfl,
   (cfg_find_contract [] [Attribute.mk "derive" (.error ⟨0, "e"⟩)] []
     (Attribute.mk "cfg" (.ok (Meta.Lst 1 "cfg"
       [NestedMeta.Meta (Meta.Word 2 "unix")])))
     (Meta.Lst 1 "cfg" [NestedMeta.Meta (Meta.Word 2 "unix")])
     ⟨0, "e"⟩ (Cfg.mk (.Name "unix"))
     (by intro x hx; rcases List.mem_singleton.mp hx with rfl; decide)
     rfl).2.2.2 rfl rfl⟩

mutual

/-- `impl Display for Predicate` (`src/printing.rs`): canonical text. -/
def Predicate.toText : Predicate → String
  | .Any ps => "any(" ++ toTextList ps ++ ")"
  | .All ps => "all(" ++ toTextList ps ++ ")"
  | .Not p => "not(" ++ p.toText ++ ")"
  | .Name n => n
  | .NameValue n v => n ++ " = \"" ++ v ++ "\""

/-- The element loop of the `Any`/`All` arms: `", "` before every element
but the first. -/
def toTextList : List Predicate → String
  | [] => ""
  | [p] => p.toText
  | p :: rest => p.toText ++ ", " ++ toTextList rest

end

/-- `impl Display for Cfg` (`src/printing.rs`): `#[cfg(<predicate>)]`. -/
def Cfg.toText (c : Cfg) : String :=
  "#[cfg(" ++ c.pred.toText ++ ")]"

mutual

/-- `Predicate.toText` at the level of character lists (proof twin;
`printChars_eq_toText` links the two). -/
def printChars : Predicate → List Char
  | .Any ps => 'a' :: 'n' :: 'y' :: '(' :: (elemsChars ps ++ [')'])
  | .All ps => 'a' :: 'l' :: 'l' :: '(' :: (elemsChars ps ++ [')'])
  | .Not p => 'n' :: 'o' :: 't' :: '(' :: (printChars p ++ [')'])
  | .Name n => n.data
  | .NameValue n v => n.data ++ ' ' :: '=' :: ' ' :: '"' :: (v.data ++ ['"'])

/-- `toTextList` at the level of character lists. -/
def elemsChars : List Predicate → List Char
  | [] => []
  | [p] => printChars p
  | p :: rest => printChars p ++ ',' :: ' ' :: elemsChars rest

end

mutual

/-- The structured item the external lexer produces from the printed text
of a predicate: operator lists for `Any`/`All`/`Not`, a word for `Name`, a
string-literal name-value pair for `NameValue` (spans are `0`, which the
lexer model below also assigns). -/
def Predicate.metaOf : Predicate → Meta
  | .Any ps => .Lst 0 "any" (nestedOfList ps)
  | .All ps => .Lst 0 "all" (nestedOfList ps)
  | .Not p => .Lst 0 "not" [.Meta p.metaOf]
  | .Name n => .Word 0 n
  | .NameValue n v => .NameValue 0 n (.Str v)

/-- `Predicate.metaOf` over a child list. -/
def nestedOfList : List Predicate → List NestedMeta
  | [] => []
  | p :: rest => .Meta p.metaOf :: nestedOfList rest

end

/-- An identifier's first character: ASCII letter or underscore. -/
def isIdentStart (c : Char) : Bool := c.isAlpha || c = '_'

/-- An identifier's continuation character. -/
def isIdentChar (c : Char) : Bool := c.isAlphanum || c = '_'

/-- A name the printed text renders as a lexable identifier. -/
def goodName (s : String) : Bool :=
  match s.data with
  | [] => false
  | c :: cs => isIdentStart c && cs.all isIdentChar

/-- A value whose quoted rendering lexes back to the same text: the printer
does no escaping, so the value must contain no quote and no backslash. -/
def goodValue (s : String) : Bool :=
  s.data.all (fun c => c ≠ '"' && c ≠ '\\')

mutual

/-- The predicates whose printed text is lexable: every name is an
identifier and every value is quote- and backslash-free. -/
def Predicate.printable : Predicate → Bool
  | .Any ps => printableList ps
  | .All ps => printableList ps
  | .Not p => p.printable
  | .Name n => goodName n
  | .NameValue n v => goodName n && goodValue v

/-- `Predicate.printable` over a child list. -/
def printableList : List Predicate → Bool
  | [] => true
  | p :: rest => p.printable && printableList rest

end

mutual

/-- Fuel needed by `parseExpr` on the printed text of a predicate. -/
def costE : Predicate → Nat
  | .Any ps => 1 + costL ps
  | .All ps => 1 + costL ps
  | .Not p => 2 + costE p
  | .Name _ => 1
  | .NameValue _ _ => 1

/-- Fuel needed across a printed child list. -/
def costL : List Predicate → Nat
  | [] => 0
  | p :: rest => 1 + costE p + costL rest

end

/-- Skip blanks (the only whitespace the printer emits). -/
def skipWs : List Char → List Char
  | [] => []
  | c :: cs => if c = ' ' then skipWs cs else c :: cs

/-- Read a string literal body up to the closing quote; the printer emits
no escapes and the model processes none. -/
def takeString : List Char → Option (List Char × List Char)
  | [] => none
  | c :: cs =>
    if c = '"' then some ([], cs)
    else (takeString cs).map (fun r => (c :: r.1, r.2))

/-- Modelled from the spec: the external lexer's parenthesized operand
list, `ExprList := Expr ("," Expr)*` followed by `)` (spec §4.1), with
zero or more operands.  `pe` parses one operand; `first` is true before
the first operand, where a bare `)` closes an empty list. -/
def parseArgsWith (pe : List Char → Option (Meta × List Char)) :
    Nat → Bool → List Char → Option (List NestedMeta × List Char)
  | 0, _, _ => none
  | fuel + 1, first, cs =>
    match skipWs cs with
    | [] => none
    | c :: cs2 =>
      if first = true ∧ c = ')' then some ([], cs2)
      else
        match pe (c :: cs2) with
        | none => none
        | some (m, r) =>
          match skipWs r with
          | [] => none
          | c2 :: r2 =>
            if c2 = ')' then some ([NestedMeta.Meta m], r2)
            else if c2 = ',' then
              match parseArgsWith pe fuel false r2 with
              | none => none
              | some (ms, r3) => some (NestedMeta.Meta m :: ms, r3)
            else none

/-- Modelled from the spec: the external lexer's expression grammar (spec
§4.1), on the printed sublanguage: `Expr := Ident | Ident = "text" |
Ident ( ExprList )`, whitespace-insensitive; spans are not tracked (`0`).
Consumes a prefix and returns the structured item with the remaining
text. -/
def parseExpr : Nat → List Char → Option (Meta × List Char)
  | 0, _ => none
  | fuel + 1, cs =>
    match skipWs cs with
    | [] => none
    | c :: cs2 =>
      if isIdentStart c then
        let idChars := c :: cs2.takeWhile isIdentChar
        let rest1 := cs2.dropWhile isIdentChar
        match skipWs rest1 with
        | [] => some (Meta.Word 0 (String.mk idChars), [])
        | c2 :: rest2 =>
          if c2 = '(' then
            match parseArgsWith (parseExpr fuel) (fuel + 1) true rest2 with
            | none => none
            | some (args, rest3) => some (Meta.Lst 0 (String.mk idChars) args, rest3)
          else if c2 = '=' then
            match skipWs rest2 with
            | [] => none
            | c3 :: rest3 =>
              if c3 = '"' then
                match takeString rest3 with
                | none => none
                | some (sv, rest4) =>
                  some (Meta.NameValue 0 (String.mk idChars) (Lit.Str (String.mk sv)), rest4)
              else none
          else some (Meta.Word 0 (String.mk idChars), c2 :: rest2)
      else none

/-- Modelled from the spec: the external attribute lexer turning
`#[ <meta> ]` text into a structured item (spec §4.1 `TopLevel` and §6,
"external collaborator boundary"), on the printed sublanguage. -/
def textToMeta (s : String) : Option Meta :=
  match s.data with
  | c0 :: r =>
    if c0 = '#' then
      match skipWs r with
      | c1 :: r2 =>
        if c1 = '[' then
          match parseExpr (r2.length + 1) r2 with
          | some (m, r3) =>
            match skipWs r3 with
            | c4 :: r5 => if c4 = ']' ∧ r5 = [] then some m else none
            | [] => none
          | none => none
        else none
      | [] => none
    else none
  | [] => none

/-- `Cfg::parse` / `syn::parse2::<Cfg>` from text: lex to a structured item
(a lex failure is itself an error result), then `TryFrom<Meta>`
(`src/parsing.rs`). -/
def parseCfg (s : String) : Option (Except ParseErr Cfg) :=
  match textToMeta s with
  | none => some (.error ⟨0, "lex error"⟩)
  | some m => Cfg.tryFromMeta m

theorem predicate_ind_aux (motive : Predicate → Prop)
    (hAny : ∀ ps, (∀ p ∈ ps, motive p) → motive (.Any ps))
    (hAll : ∀ ps, (∀ p ∈ ps, motive p) → motive (.All ps))
    (hNot : ∀ p, motive p → motive (.Not p))
    (hName : ∀ n, motive (.Name n))
    (hNV : ∀ n v, motive (.NameValue n v)) :
    ∀ (k : Nat) (p : Predicate), sizeOf p < k → motive p := by
  intro k
  induction k with
  | zero => intro p h; omega
  | succ k ih =>
    intro p hp
    match p with
    | .Any ps =>
      refine hAny ps (fun q hq => ih q ?_)
      have h1 := List.sizeOf_lt_of_mem hq
      have h2 : sizeOf (Predicate.Any ps) < k + 1 := hp
      simp only [Predicate.Any.sizeOf_spec] at h2
      omega
    | .All ps =>
      refine hAll ps (fun q hq => ih q ?_)
      have h1 := List.sizeOf_lt_of_mem hq
      have h2 : sizeOf (Predicate.All ps) < k + 1 := hp
      simp only [Predicate.All.sizeOf_spec] at h2
      omega
    | .Not q =>
      refine hNot q (ih q ?_)
      have h2 : sizeOf (Predicate.Not q) < k + 1 := hp
      simp only [Predicate.Not.sizeOf_spec] at h2
      omega
    | .Name n => exact hName n
    | .NameValue n v => exact hNV n v

theorem predicate_strong_ind (motive : Predicate → Prop)
    (hAny : ∀ ps, (∀ p ∈ ps, motive p) → motive (.Any ps))
    (hAll : ∀ ps, (∀ p ∈ ps, motive p) → motive (.All ps))
    (hNot : ∀ p, motive p → motive (.Not p))
    (hName : ∀ n, motive (.Name n))
    (hNV : ∀ n v, motive (.NameValue n v)) : ∀ p, motive p :=
  fun p => predicate_ind_aux motive hAny hAll hNot hName hNV
    (sizeOf p + 1) p (by omega)

theorem collect_nestedOfList (ps : List Predicate)
    (h : ∀ p ∈ ps, parse_meta p.metaOf = some (.ok p)) :
    collectNested (nestedOfList ps) = some (.ok ps) := by
  induction ps with
  | nil => rfl
  | cons p rest ih =>
    have hp := h p (List.mem_cons_self p rest)
    have hrest := ih (fun q hq => h q (List.mem_cons_of_mem p hq))
    simp [nestedOfList, collectNested, parse_nested_meta, hp, hrest]

/-- The structured item the printer's text lexes to parses back to the
original predicate. -/
theorem parse_metaOf : ∀ p : Predicate,
    parse_meta p.metaOf = some (.ok p) := by
  refine predicate_strong_ind _ ?_ ?_ ?_ ?_ ?_
  · intro ps ih
    rw [Predicate.metaOf]
    exact parse_meta_any_ok 0 (nestedOfList ps) ps (collect_nestedOfList ps ih)
  · intro ps ih
    rw [Predicate.metaOf]
    exact parse_meta_all_ok 0 (nestedOfList ps) ps (collect_nestedOfList ps ih)
  · intro p ih
    rw [Predicate.metaOf]
    have h1 : parse_nested_meta (.Meta p.metaOf) = some (.ok p) := by
      simp [parse_nested_meta, ih]
    rw [parse_meta_not_one 0 (.Meta p.metaOf) (.ok p) h1]
    rfl
  · intro n; rfl
  · intro n v; rfl

theorem skipWs_cons_ne (c : Char) (cs : List Char) (h : ¬(c = ' ')) :
    skipWs (c :: cs) = c :: cs := by
  simp [skipWs, h]

theorem skipWs_cons_space (cs : List Char) : skipWs (' ' :: cs) = skipWs cs := by
  simp [skipWs]

theorem isIdentStart_ne_space (c : Char) (h : isIdentStart c = true) :
    ¬(c = ' ') := by
  rintro rfl; revert h; decide

theorem isIdentStart_ne_rparen (c : Char) (h : isIdentStart c = true) :
    ¬(c = ')') := by
  rintro rfl; revert h; decide

theorem takeWhile_ident_append (xs : List Char) (y : Char) (ys : List Char)
    (hx : ∀ c ∈ xs, isIdentChar c = true) (hy : isIdentChar y = false) :
    (xs ++ y :: ys).takeWhile isIdentChar = xs
    ∧ (xs ++ y :: ys).dropWhile isIdentChar = y :: ys := by
  induction xs with
  | nil => simp [List.takeWhile_cons, List.dropWhile_cons, hy]
  | cons a as ih =>
    have ha := hx a (List.mem_cons_self a as)
    have h2 := ih (fun c hc => hx c (List.mem_cons_of_mem a hc))
    simp [List.takeWhile_cons, List.dropWhile_cons, ha, h2.1, h2.2]

theorem takeString_closes (v rest : List Char) (hv : ∀ c ∈ v, ¬(c = '"')) :
    takeString (v ++ '"' :: rest) = some (v, rest) := by
  induction v with
  | nil => simp [takeString]
  | cons c cs ih =>
    have hc := hv c (List.mem_cons_self c cs)
    simp [takeString, hc, ih (fun d hd => hv d (List.mem_cons_of_mem c hd))]

theorem printChars_head (p : Predicate) (h : Predicate.printable p = true) :
    ∃ c cs, printChars p = c :: cs ∧ isIdentStart c = true := by
  cases p with
  | Any ps => exact ⟨'a', _, rfl, by decide⟩
  | All ps => exact ⟨'a', _, rfl, by decide⟩
  | Not q => exact ⟨'n', _, rfl, by decide⟩
  | Name n =>
    rw [Predicate.printable] at h
    rcases hd : n.data with _ | ⟨c, cs⟩
    · rw [goodName, hd] at h; simp at h
    · rw [goodName, hd] at h
      simp only [Bool.and_eq_true] at h
      exact ⟨c, cs, by rw [printChars, hd], h.1⟩
  | NameValue n v =>
    rw [Predicate.printable] at h
    simp only [Bool.and_eq_true] at h
    obtain ⟨h1, h2⟩ := h
    rcases hd : n.data with _ | ⟨c, cs⟩
    · rw [goodName, hd] at h1; simp at h1
    · rw [goodName, hd] at h1
      simp only [Bool.and_eq_true] at h1
      refine ⟨c, cs ++ ' ' :: '=' :: ' ' :: '"' :: (v.data ++ ['"']), ?_, h1.1⟩
      rw [printChars, hd]
      simp

theorem costE_pos (p : Predicate) : 1 ≤ costE p := by
  cases p <;> (simp [costE]; try omega)

theorem costL_ge_len (ps : List Predicate) : ps.length ≤ costL ps := by
  induction ps with
  | nil => simp [costL]
  | cons p rest ih =>
    have := costE_pos p
    rw [costL]
    simp only [List.length_cons]
    omega

theorem costL_ge_mem (ps : List Predicate) (p : Predicate) (h : p ∈ ps) :
    costE p ≤ costL ps := by
  induction ps with
  | nil => cases h
  | cons a as ih =>
    rcases List.mem_cons.mp h with rfl | h2
    · rw [costL]; omega
    · have := ih h2; rw [costL]; omega

theorem toTextList_data : ∀ ps : List Predicate,
    (∀ p ∈ ps, (Predicate.toText p).data = printChars p) →
    (toTextList ps).data = elemsChars ps := by
  intro ps
  induction ps with
  | nil => intro _; rfl
  | cons p rest ih =>
    intro h
    cases rest with
    | nil =>
      rw [toTextList, elemsChars]
      exact h p (List.mem_cons_self p [])
    | cons q rest2 =>
      rw [toTextList, elemsChars, String.data_append, String.data_append,
        h p (List.mem_cons_self p (q :: rest2)),
        ih (fun r hr => h r (List.mem_cons_of_mem p hr))]
      · simp [show (", " : String).data = [',', ' '] from rfl]
      all_goals simp

theorem toText_data : ∀ p : Predicate,
    (Predicate.toText p).data = printChars p := by
  refine predicate_strong_ind _ ?_ ?_ ?_ ?_ ?_
  · intro ps ih
    rw [Predicate.toText, printChars, String.data_append, String.data_append,
      toTextList_data ps ih]
    simp [show ("any(" : String).data = ['a', 'n', 'y', '('] from rfl,
      show (")" : String).data = [')'] from rfl]
  · intro ps ih
    rw [Predicate.toText, printChars, String.data_append, String.data_append,
      toTextList_data ps ih]
    simp [show ("all(" : String).data = ['a', 'l', 'l', '('] from rfl,
      show (")" : String).data = [')'] from rfl]
  · intro p ih
    rw [Predicate.toText, printChars, String.data_append, String.data_append, ih]
    simp [show ("not(" : String).data = ['n', 'o', 't', '('] from rfl,
      show (")" : String).data = [')'] from rfl]
  · intro n; rfl
  · intro n v
    rw [Predicate.toText, printChars, String.data_append, String.data_append,
      String.data_append]
    simp [show (" = \"" : String).data = [' ', '=', ' ', '"'] from rfl,
      show ("\"" : String).data = ['"'] from rfl]

theorem cfgToText_data (p : Predicate) :
    (Cfg.toText (Cfg.mk p)).data =
      '#' :: '[' :: 'c' :: 'f' :: 'g' :: '(' :: (printChars p ++ [')', ']']) := by
  rw [Cfg.toText, String.data_append, String.data_append]
  rw [show (Cfg.mk p).pred = p from rfl, toText_data]
  simp [show ("#[cfg(" : String).data = ['#', '[', 'c', 'f', 'g', '('] from rfl,
    show (")]" : String).data = [')', ']'] from rfl]
theorem parseExpr_ident_paren (F : Nat) (c : Char) (idTail body rest : List Char)
    (args : List NestedMeta) (hs : isIdentStart c = true)
    (ht : ∀ d ∈ idTail, isIdentChar d = true)
    (hbody : parseArgsWith (parseExpr F) (F + 1) true body = some (args, rest)) :
    parseExpr (F + 1) (c :: (idTail ++ '(' :: body)) =
      some (Meta.Lst 0 (String.mk (c :: idTail)) args, rest) := by
  have hspan := takeWhile_ident_append idTail '(' body ht (by decide)
  rw [parseExpr]
  rw [skipWs_cons_ne c _ (isIdentStart_ne_space c hs)]
  simp only [hs, if_true, hspan.1, hspan.2]
  rw [skipWs_cons_ne '(' body (by decide)]
  simp [hbody]

theorem parseExpr_ident_word (F : Nat) (c : Char) (idTail t : List Char) (r0 : Char)
    (hs : isIdentStart c = true) (ht : ∀ d ∈ idTail, isIdentChar d = true)
    (hr0 : r0 = ',' ∨ r0 = ')') :
    parseExpr (F + 1) (c :: (idTail ++ r0 :: t)) =
      some (Meta.Word 0 (String.mk (c :: idTail)), r0 :: t) := by
  rcases hr0 with rfl | rfl
  · have hspan := takeWhile_ident_append idTail ',' t ht (by decide)
    rw [parseExpr]
    rw [skipWs_cons_ne c _ (isIdentStart_ne_space c hs)]
    simp only [hs, if_true, hspan.1, hspan.2]
    rw [skipWs_cons_ne ',' t (by decide)]
    simp
  · have hspan := takeWhile_ident_append idTail ')' t ht (by decide)
    rw [parseExpr]
    rw [skipWs_cons_ne c _ (isIdentStart_ne_space c hs)]
    simp only [hs, if_true, hspan.1, hspan.2]
    rw [skipWs_cons_ne ')' t (by decide)]
    simp

theorem parseExpr_name_value (F : Nat) (c : Char) (idTail v rest : List Char)
    (hs : isIdentStart c = true) (ht : ∀ d ∈ idTail, isIdentChar d = true)
    (hv : ∀ d ∈ v, ¬(d = '"')) :
    parseExpr (F + 1) (c :: (idTail ++ ' ' :: '=' :: ' ' :: '"' :: (v ++ '"' :: rest))) =
      some (Meta.NameValue 0 (String.mk (c :: idTail)) (Lit.Str (String.mk v)), rest) := by
  have hspan := takeWhile_ident_append idTail ' '
    ('=' :: ' ' :: '"' :: (v ++ '"' :: rest)) ht (by decide)
  rw [parseExpr]
  rw [skipWs_cons_ne c _ (isIdentStart_ne_space c hs)]
  simp only [hs, if_true, hspan.1, hspan.2]
  rw [skipWs_cons_space, skipWs_cons_ne '=' _ (by decide)]
  simp only []
  rw [skipWs_cons_space, skipWs_cons_ne '"' _ (by decide)]
  simp [takeString_closes v rest hv]

theorem parseArgsWith_space (pe : List Char → Option (Meta × List Char))
    (F : Nat) (b : Bool) (cs : List Char) :
    parseArgsWith pe F b (' ' :: cs) = parseArgsWith pe F b cs := by
  cases F with
  | zero => rfl
  | succ f => rw [parseArgsWith, parseArgsWith, skipWs_cons_space]

theorem parseArgs_print (pe : List Char → Option (Meta × List Char)) :
    ∀ ps : List Predicate,
    (∀ p ∈ ps, ∀ r : List Char, (r.head? = some ',' ∨ r.head? = some ')') →
      pe (printChars p ++ r) = some (p.metaOf, r)) →
    (∀ p ∈ ps, Predicate.printable p = true) →
    ∀ F : Nat, ps.length + 1 ≤ F → ∀ rest : List Char, ∀ b : Bool,
      (b = true ∨ ps ≠ []) →
      parseArgsWith pe F b (elemsChars ps ++ ')' :: rest) =
        some (nestedOfList ps, rest) := by
  intro ps
  induction ps with
  | nil =>
    intro hpe hgood F hF rest b hb
    rcases hb with rfl | hne
    · obtain ⟨f, rfl⟩ : ∃ f, F = f + 1 := ⟨F - 1, by omega⟩
      rw [elemsChars, parseArgsWith]
      simp only [List.nil_append]
      rw [skipWs_cons_ne ')' rest (by decide)]
      simp [nestedOfList]
    · exact absurd rfl hne
  | cons p ps' ih =>
    intro hpe hgood F hF rest b hb
    obtain ⟨f, rfl⟩ : ∃ f, F = f + 1 := ⟨F - 1, by omega⟩
    obtain ⟨c, cs, hpc, hcs⟩ := printChars_head p (hgood p (List.mem_cons_self p ps'))
    have hcne : ¬(b = true ∧ c = ')') := fun hcon => isIdentStart_ne_rparen c hcs hcon.2
    cases ps' with
    | nil =>
      have hpe1 : pe (c :: (cs ++ ')' :: rest)) = some (p.metaOf, ')' :: rest) := by
        rw [show c :: (cs ++ ')' :: rest) = printChars p ++ ')' :: rest by
          rw [hpc]; simp]
        exact hpe p (List.mem_cons_self p []) (')' :: rest) (Or.inr rfl)
      rw [elemsChars, parseArgsWith, hpc]
      simp only [List.cons_append]
      rw [skipWs_cons_ne c _ (isIdentStart_ne_space c hcs)]
      simp [hcne, hpe1, skipWs_cons_ne ')' rest (by decide), nestedOfList]
    | cons q qs =>
      have helems : elemsChars (p :: q :: qs) =
          printChars p ++ ',' :: ' ' :: elemsChars (q :: qs) := by
        rw [elemsChars]
        simp
      have hpe1 : pe (c :: (cs ++ (',' :: ' ' :: (elemsChars (q :: qs) ++ ')' :: rest)))) =
          some (p.metaOf, ',' :: ' ' :: (elemsChars (q :: qs) ++ ')' :: rest)) := by
        rw [show c :: (cs ++ (',' :: ' ' :: (elemsChars (q :: qs) ++ ')' :: rest))) =
            printChars p ++ ',' :: ' ' :: (elemsChars (q :: qs) ++ ')' :: rest) by
          rw [hpc]; simp]
        exact hpe p (List.mem_cons_self p (q :: qs)) _ (Or.inl rfl)
      have hih := ih (fun r hr rr hrr => hpe r (List.mem_cons_of_mem p hr) rr hrr)
        (fun r hr => hgood r (List.mem_cons_of_mem p hr))
        f (by simp at hF ⊢; omega) rest false (Or.inr (by simp))
      rw [helems, parseArgsWith, hpc]
      simp only [List.cons_append, List.append_assoc]
      rw [skipWs_cons_ne c _ (isIdentStart_ne_space c hcs)]
      simp [hcne, hpe1, skipWs_cons_ne ',' _ (by decide), parseArgsWith_space,
        hih, nestedOfList]

theorem printableList_mem (ps : List Predicate) (h : printableList ps = true) :
    ∀ p ∈ ps, Predicate.printable p = true := by
  induction ps with
  | nil => intro p hp; cases hp
  | cons x xs ih =>
    rw [printableList, Bool.and_eq_true] at h
    intro p hp
    rcases List.mem_cons.mp hp with rfl | hp2
    · exact h.1
    · exact ih h.2 p hp2

theorem parseExpr_print : ∀ p : Predicate, Predicate.printable p = true →
    ∀ F : Nat, costE p ≤ F → ∀ rest : List Char,
    (rest.head? = some ',' ∨ rest.head? = some ')') →
    parseExpr F (printChars p ++ rest) = some (p.metaOf, rest) := by
  refine predicate_strong_ind _ ?_ ?_ ?_ ?_ ?_
  · intro ps ih hpr F hF rest hrest
    rw [Predicate.printable] at hpr
    have hgood := printableList_mem ps hpr
    obtain ⟨f, rfl⟩ : ∃ f, F = f + 1 :=
      ⟨F - 1, by have := costE_pos (Predicate.Any ps); omega⟩
    have hf : costL ps ≤ f := by rw [costE] at hF; omega
    have hpe : ∀ p ∈ ps, ∀ r : List Char,
        (r.head? = some ',' ∨ r.head? = some ')') →
        parseExpr f (printChars p ++ r) = some (p.metaOf, r) :=
      fun p hp r hr =>
        ih p hp (hgood p hp) f (le_trans (costL_ge_mem ps p hp) hf) r hr
    rw [printChars]
    rw [show ('a' :: 'n' :: 'y' :: '(' :: (elemsChars ps ++ [')'])) ++ rest
      = 'a' :: (['n', 'y'] ++ '(' :: (elemsChars ps ++ ')' :: rest)) by simp]
    rw [parseExpr_ident_paren f 'a' ['n', 'y'] (elemsChars ps ++ ')' :: rest)
      rest (nestedOfList ps) (by decide) (by decide)
      (parseArgs_print (parseExpr f) ps hpe hgood (f + 1)
        (by have := costL_ge_len ps; omega) rest true (Or.inl rfl))]
    rw [Predicate.metaOf]
  · intro ps ih hpr F hF rest hrest
    rw [Predicate.printable] at hpr
    have hgood := printableList_mem ps hpr
    obtain ⟨f, rfl⟩ : ∃ f, F = f + 1 :=
      ⟨F - 1, by have := costE_pos (Predicate.All ps); omega⟩
    have hf : costL ps ≤ f := by rw [costE] at hF; omega
    have hpe : ∀ p ∈ ps, ∀ r : List Char,
        (r.head? = some ',' ∨ r.head? = some ')') →
        parseExpr f (printChars p ++ r) = some (p.metaOf, r) :=
      fun p hp r hr =>
        ih p hp (hgood p hp) f (le_trans (costL_ge_mem ps p hp) hf) r hr
    rw [printChars]
    rw [show ('a' :: 'l' :: 'l' :: '(' :: (elemsChars ps ++ [')'])) ++ rest
      = 'a' :: (['l', 'l'] ++ '(' :: (elemsChars ps ++ ')' :: rest)) by simp]
    rw [parseExpr_ident_paren f 'a' ['l', 'l'] (elemsChars ps ++ ')' :: rest)
      rest (nestedOfList ps) (by decide) (by decide)
      (parseArgs_print (parseExpr f) ps hpe hgood (f + 1)
        (by have := costL_ge_len ps; omega) rest true (Or.inl rfl))]
    rw [Predicate.metaOf]
  · intro p ihp hpr F hF rest hrest
    rw [Predicate.printable] at hpr
    obtain ⟨f, rfl⟩ : ∃ f, F = f + 1 :=
      ⟨F - 1, by have := costE_pos (Predicate.Not p); omega⟩
    have hf : costE p ≤ f ∧ 1 ≤ f := by rw [costE] at hF; omega
    have hpe : ∀ q ∈ [p], ∀ r : List Char,
        (r.head? = some ',' ∨ r.head? = some ')') →
        parseExpr f (printChars q ++ r) = some (q.metaOf, r) := by
      intro q hq r hr
      rcases List.mem_singleton.mp hq with rfl
      exact ihp hpr f hf.1 r hr
    have hargs := parseArgs_print (parseExpr f) [p] hpe
      (by intro q hq; rcases List.mem_singleton.mp hq with rfl; exact hpr)
      (f + 1) (by simp; omega) rest true (Or.inl rfl)
    rw [show elemsChars [p] = printChars p from by rw [elemsChars]] at hargs
    rw [printChars]
    rw [show ('n' :: 'o' :: 't' :: '(' :: (printChars p ++ [')'])) ++ rest
      = 'n' :: (['o', 't'] ++ '(' :: (printChars p ++ ')' :: rest)) by simp]
    rw [parseExpr_ident_paren f 'n' ['o', 't'] (printChars p ++ ')' :: rest)
      rest (nestedOfList [p]) (by decide) (by decide) hargs]
    rw [Predicate.metaOf]
    rfl
  · intro n hpr F hF rest hrest
    rw [Predicate.printable] at hpr
    rcases hd : n.data with _ | ⟨c, cs⟩
    · rw [goodName, hd] at hpr; simp at hpr
    · rw [goodName, hd] at hpr
      simp only [Bool.and_eq_true] at hpr
      have ht := List.all_eq_true.mp hpr.2
      obtain ⟨f, rfl⟩ : ∃ f, F = f + 1 := ⟨F - 1, by rw [costE] at hF; omega⟩
      rcases rest with _ | ⟨r0, t⟩
      · simp at hrest
      · have hr0 : r0 = ',' ∨ r0 = ')' := by
          rcases hrest with h | h <;> simp at h <;> [exact Or.inl h; exact Or.inr h]
        rw [printChars, hd]
        rw [show (c :: cs) ++ r0 :: t = c :: (cs ++ r0 :: t) by simp]
        rw [parseExpr_ident_word f c cs t r0 hpr.1 ht hr0]
        rw [Predicate.metaOf]
        rw [show String.mk (c :: cs) = n by rw [← hd]]
  · intro n v hpr F hF rest hrest
    rw [Predicate.printable] at hpr
    simp only [Bool.and_eq_true] at hpr
    obtain ⟨h1, h2⟩ := hpr
    rcases hd : n.data with _ | ⟨c, cs⟩
    · rw [goodName, hd] at h1; simp at h1
    · rw [goodName, hd] at h1
      simp only [Bool.and_eq_true] at h1
      have ht := List.all_eq_true.mp h1.2
      have hv : ∀ d ∈ v.data, ¬(d = '"') := by
        intro d hd2
        have := List.all_eq_true.mp h2 d hd2
        simp only [Bool.and_eq_true, decide_eq_true_eq] at this
        exact this.1
      obtain ⟨f, rfl⟩ : ∃ f, F = f + 1 := ⟨F - 1, by rw [costE] at hF; omega⟩
      rw [printChars, hd]
      rw [show (c :: cs ++ ' ' :: '=' :: ' ' :: '"' :: (v.data ++ ['"'])) ++ rest
        = c :: (cs ++ ' ' :: '=' :: ' ' :: '"' :: (v.data ++ '"' :: rest)) by simp]
      rw [parseExpr_name_value f c cs v.data rest h1.1 ht hv]
      rw [Predicate.metaOf]
      rw [show String.mk (c :: cs) = n by rw [← hd]]

theorem costL_le_elems : ∀ ps : List Predicate,
    (∀ p ∈ ps, costE p ≤ (printChars p).length + 1) →
    costL ps ≤ (elemsChars ps).length + 2 := by
  intro ps
  induction ps with
  | nil => intro _; simp [costL, elemsChars]
  | cons p rest ih =>
    intro h
    have hp := h p (List.mem_cons_self p rest)
    cases rest with
    | nil =>
      rw [costL, costL, show elemsChars [p] = printChars p from by rw [elemsChars]]
      omega
    | cons q qs =>
      have hih := ih (fun r hr => h r (List.mem_cons_of_mem p hr))
      rw [costL, show elemsChars (p :: q :: qs) =
          printChars p ++ ',' :: ' ' :: elemsChars (q :: qs) from by
        rw [elemsChars]; simp]
      simp only [List.length_append, List.length_cons]
      omega

theorem costE_le_print : ∀ p : Predicate, Predicate.printable p = true →
    costE p ≤ (printChars p).length + 1 := by
  refine predicate_strong_ind _ ?_ ?_ ?_ ?_ ?_
  · intro ps ih hpr
    rw [Predicate.printable] at hpr
    have hgood := printableList_mem ps hpr
    have := costL_le_elems ps (fun p hp => ih p hp (hgood p hp))
    rw [costE, printChars]
    simp only [List.length_cons, List.length_append, List.length_singleton]
    omega
  · intro ps ih hpr
    rw [Predicate.printable] at hpr
    have hgood := printableList_mem ps hpr
    have := costL_le_elems ps (fun p hp => ih p hp (hgood p hp))
    rw [costE, printChars]
    simp only [List.length_cons, List.length_append, List.length_singleton]
    omega
  · intro p ih hpr
    rw [Predicate.printable] at hpr
    have := ih hpr
    rw [costE, printChars]
    simp only [List.length_cons, List.length_append, List.length_singleton]
    omega
  · intro n _; rw [costE]; omega
  · intro n v _; rw [costE]; omega

theorem textToMeta_print (p : Predicate) (h : Predicate.printable p = true) :
    textToMeta (Cfg.toText (Cfg.mk p)) =
      some (Meta.Lst 0 "cfg" [NestedMeta.Meta p.metaOf]) := by
  have hdata := cfgToText_data p
  have hcost := costE_le_print p h
  have hpe : ∀ q ∈ [p], ∀ r : List Char,
      (r.head? = some ',' ∨ r.head? = some ')') →
      parseExpr ((printChars p).length + 6) (printChars q ++ r) =
        some (q.metaOf, r) := by
    intro q hq r hr
    rcases List.mem_singleton.mp hq with rfl
    exact parseExpr_print q h ((printChars q).length + 6) (by omega) r hr
  have hargs := parseArgs_print (parseExpr ((printChars p).length + 6)) [p] hpe
    (by intro q hq; rcases List.mem_singleton.mp hq with rfl; exact h)
    ((printChars p).length + 6 + 1) (by simp) [']'] true (Or.inl rfl)
  rw [show elemsChars [p] = printChars p from by rw [elemsChars]] at hargs
  rw [textToMeta, hdata]
  simp only []
  rw [skipWs_cons_ne '[' _ (by decide)]
  simp only [if_true]
  rw [show ('c' :: 'f' :: 'g' :: '(' :: (printChars p ++ [')', ']'])).length
    = (printChars p).length + 6 by simp]
  rw [show ('c' :: 'f' :: 'g' :: '(' :: (printChars p ++ [')', ']']))
    = 'c' :: (['f', 'g'] ++ '(' :: (printChars p ++ ')' :: [']'])) by simp]
  rw [parseExpr_ident_paren ((printChars p).length + 6) 'c' ['f', 'g']
    (printChars p ++ ')' :: [']']) [']'] [NestedMeta.Meta p.metaOf]
    (by decide) (by decide)
    (by rw [show nestedOfList [p] = [NestedMeta.Meta p.metaOf] from rfl] at hargs
        exact hargs)]
  simp only []
  rw [skipWs_cons_ne ']' _ (by decide)]
  simp

/-- C3 counterexample: the builder accepts any string, but `name "foo bar"`
prints as `#[cfg(foo bar)]`, which does not lex back: the round trip fails
(the parse returns an error result, not the original tree). -/
theorem roundtrip_counterexample :
    parseCfg (Cfg.toText (Cfg.mk (Predicate.Name "foo bar"))) =
      some (.error ⟨0, "lex error"⟩)
    ∧ parseCfg (Cfg.toText (Cfg.mk (Predicate.Name "foo bar"))) ≠
      some (.ok (Cfg.mk (Predicate.Name "foo bar"))) := by
  refine ⟨rfl, fun hcon => ?_⟩
  rw [show parseCfg (Cfg.toText (Cfg.mk (Predicate.Name "foo bar"))) =
    some (.error ⟨0, "lex error"⟩) from rfl] at hcon
  exact absurd hcon (by simp)

/-- C3 (amended): rendering a `Cfg` to text and parsing it back yields the
original tree, for every predicate whose names are nonempty ASCII
identifiers (letter or underscore first, alphanumeric or underscore after)
and whose values contain no double quote and no backslash; outside that
fragment the printer's unescaped output need not lex back.  Every tree the
builder functions or the parser can produce is quantified over. -/
theorem print_parse_roundtrip (p : Predicate)
    (h : Predicate.printable p = true) :
    parseCfg (Cfg.toText (Cfg.mk p)) = some (.ok (Cfg.mk p)) := by
  rw [parseCfg, textToMeta_print p h]
  have hpm : parse_meta (Meta.Lst 0 "cfg" [NestedMeta.Meta p.metaOf]) =
      some (.ok p) :=
    parse_meta_cfg_one 0 (NestedMeta.Meta p.metaOf) (.ok p)
      (by simp [parse_nested_meta, parse_metaOf p])
  simp [Cfg.tryFromMeta, Meta.name, hpm]

/-- Witness for C3 at `#[cfg(all(unix, target_pointer_width = "32"))]`. -/
theorem print_parse_roundtrip_witness :
    Predicate.printable (.All [.Name "unix",
      .NameValue "target_pointer_width" "32"]) = true
    ∧ parseCfg (Cfg.toText (Cfg.mk (.All [.Name "unix",
        .NameValue "target_pointer_width" "32"]))) =
      some (.ok (Cfg.mk (.All [.Name "unix",
        .NameValue "target_pointer_width" "32"]))) :=
  ⟨by decide,
   print_parse_roundtrip (.All [.Name "unix",
     .NameValue "target_pointer_width" "32"]) (by decide)⟩
